import Mathlib

/-!
Verification of the object-studio chunk scanning, deduplication and
reconstruction engine.

The grid-geometry constants are transcribed from `src/data/constants.py`.
The pipeline components (density classifier, orientation canonicalizer,
deduplication index, forward object generator, inverse frames generator)
live in the generator modules `generators/object_generator.py` and
`generators/frames_generator.py`, which are not present in the repository
excerpt; they are modelled from the specification, component by
component, as executable Lean definitions. Pixels are natural numbers
with `0` meaning "empty" (fully transparent).
-/

namespace ObjectStudio

/-- Base cell size, from `src/data/constants.py` (`TILE_SIZE = 8`). -/
def TILE_SIZE : Nat := 8

/-- Chunk-size hierarchy, from `src/data/constants.py` (`CHUNK_SIZES`),
in source order. -/
def CHUNK_SIZES : List (Nat × Nat) :=
  [(64, 64), (64, 32), (32, 64), (32, 32), (32, 16), (16, 32),
   (32, 8), (8, 32), (16, 16), (16, 8), (8, 16), (8, 8)]

/-- Orientation table, from `src/data/constants.py` (`ORIENTATION_VALUES`):
name to (row-flip bit, column-flip bit), in source order. -/
def ORIENTATION_VALUES : List (String × Nat × Nat) :=
  [("original", (0, 0)), ("flip_h", (0, 1)), ("flip_v", (1, 0)), ("flip_both", (1, 1))]

/-- Chunk content: a list of rows of pixel values, `0` meaning empty. -/
abbrev Content := List (List Nat)

/-- Modelled from the spec: §3 Orientation / §4.3 — an orientation is an
independent (row-flip, column-flip) bit pair; applying it flips the order
of the rows and/or reverses each row of a chunk's content. -/
def applyOrient (o : Nat × Nat) (m : Content) : Content :=
  let m1 := if o.1 = 1 then m.reverse else m
  if o.2 = 1 then m1.map List.reverse else m1

/-- Modelled from the spec: §4.3 — each of the two flips is an involution,
so every orientation is its own inverse. -/
def inverseOrient (o : Nat × Nat) : Nat × Nat := o

/-- The four orientation bit pairs, in the order of `ORIENTATION_VALUES`. -/
def orientationCodes : List (Nat × Nat) := ORIENTATION_VALUES.map Prod.snd

/-- Modelled from the spec: §4.3 — lexicographic strict order on rows of
pixel values, the deterministic tie-break for canonical-form selection
("lexicographically smallest wins"). -/
def rowLt : List Nat → List Nat → Bool
  | _, [] => false
  | [], _ :: _ => true
  | a :: as, b :: bs => if a < b then true else if b < a then false else rowLt as bs

/-- Modelled from the spec: §4.3 — lexicographic strict order on whole
chunk contents (row lists compared by `rowLt`). -/
def contentLt : Content → Content → Bool
  | _, [] => false
  | [], _ :: _ => true
  | r :: rs, s :: ss => if rowLt r s then true else if rowLt s r then false else contentLt rs ss

/-- Modelled from the spec: §4.3 Orientation Canonicalizer (absent from
the excerpt) — compute all four symmetry transforms of the content, keep
the lexicographically smallest (first wins on ties, scanning in
`ORIENTATION_VALUES` order), and record the orientation that reaches the
as-scanned content from the canonical form. -/
def canonicalize (m : Content) : Content × (Nat × Nat) :=
  orientationCodes.foldl
    (fun best o =>
      let cand := applyOrient o m
      if contentLt cand best.1 then (cand, o) else best)
    (m, (0, 0))

/-- Modelled from the spec: §4.2 Density Classifier (absent from the
excerpt) — exact comparison "fraction of non-empty pixels ≥ threshold",
i.e. `t ≤ count / len`, computed without division as
`t.num * len ≤ count * t.den`. -/
def densityCmp (t : ℚ) (count len : Nat) : Bool :=
  decide (t.num * (len : ℤ) ≤ (count : ℤ) * (t.den : ℤ))

/-- Number of non-empty pixels in one line (a pixel is empty iff `0`). -/
def countFilled (l : List Nat) : Nat := l.countP fun p => p != 0

/-- Modelled from the spec: §4.2 — every line in the list must meet the
density threshold. -/
def rowsDense (m : Content) (t : ℚ) : Bool :=
  m.all fun r => densityCmp t (countFilled r) r.length

/-- Columns of a chunk's content, each read top to bottom. -/
def columnsOf (m : Content) : Content :=
  (List.range (m.headD []).length).map fun j => m.map fun r => r.getD j 0

/-- Modelled from the spec: §4.2 Density Classifier — a chunk qualifies
iff every row and every column meets the minimum density threshold. -/
def densityOK (m : Content) (t : ℚ) : Bool :=
  rowsDense m t && rowsDense (columnsOf m) t

/-- Density fractions of the lines of a content, as rationals. -/
def lineDensities (m : Content) : List ℚ :=
  m.map fun r => ((countFilled r : ℚ) / (r.length : ℚ))

/-- Minimum of a list of rationals (`0` for the empty list). -/
def minQ : List ℚ → ℚ
  | [] => 0
  | [a] => a
  | a :: b :: rest => min a (minQ (b :: rest))

/-- Modelled from the spec: §4.4 Object Deduplication Index (absent from
the excerpt) — content-addressable lookup returning the id (position) of
the first occurrence of the canonical content, inserting it at the end on
first occurrence. -/
def lookupOrInsert : List Content → Content → Nat × List Content
  | [], x => (0, [x])
  | y :: ys, x =>
    if y = x then (0, y :: ys)
    else
      let p := lookupOrInsert ys x
      (p.1 + 1, y :: p.2)

/-- Folding a batch of further insertions into the library. -/
def insertAll (lib : List Content) (ys : List Content) : List Content :=
  ys.foldl (fun l y => (lookupOrInsert l y).2) lib

/-- A raster frame: declared dimensions plus a pixel lookup function
(row, column → pixel value, `0` = empty). -/
structure Frame where
  width : Nat
  height : Nat
  px : Nat → Nat → Nat

/-- Modelled from the spec: §4.5 failure modes — a frame is acceptable
iff both dimensions are at least the base cell size and aligned to it. -/
def dimsOK (f : Frame) : Bool :=
  decide (TILE_SIZE ≤ f.width) && decide (TILE_SIZE ≤ f.height) &&
    (f.width % TILE_SIZE == 0) && (f.height % TILE_SIZE == 0)

/-- Raw pixel content of the rectangular region of `f` with top-left
pixel (x, y), width `w` and height `h`. -/
def extract (f : Frame) (x y w h : Nat) : Content :=
  (List.range h).map fun r => (List.range w).map fun c => f.px (y + r) (x + c)

/-- A candidate chunk position during scanning: top-left pixel (x, y) and
pixel size w × h. -/
structure Cand where
  x : Nat
  y : Nat
  w : Nat
  h : Nat
deriving DecidableEq

/-- Modelled from the spec: §4.5 step 1 — for each chunk size in
hierarchy order, all grid-aligned positions where the chunk fits inside
the frame, rows before columns. -/
def candidates (W H : Nat) : List Cand :=
  CHUNK_SIZES.flatMap fun s =>
    if s.1 ≤ W && s.2 ≤ H then
      (List.range (H / TILE_SIZE + 1 - s.2 / TILE_SIZE)).flatMap fun j =>
        (List.range (W / TILE_SIZE + 1 - s.1 / TILE_SIZE)).map fun i =>
          ⟨TILE_SIZE * i, TILE_SIZE * j, s.1, s.2⟩
    else []

/-- The grid cells (column-cell index, row-cell index) claimed by the
region with top-left pixel (x, y) and pixel size w × h. -/
def cellsOf (x y w h : Nat) : List (Nat × Nat) :=
  (List.range (h / TILE_SIZE)).flatMap fun j =>
    (List.range (w / TILE_SIZE)).map fun i =>
      (x / TILE_SIZE + i, y / TILE_SIZE + j)

/-- A placement record: position, pixel size, object id and recorded
orientation of one accepted chunk. -/
structure Placement where
  x : Nat
  y : Nat
  w : Nat
  h : Nat
  objId : Nat
  orient : Nat × Nat
deriving DecidableEq

/-- The grid cells claimed by a placement. -/
def cellsP (p : Placement) : List (Nat × Nat) := cellsOf p.x p.y p.w p.h

/-- Two placements claim disjoint grid-cell sets. -/
def cellDisjoint (p q : Placement) : Prop := ∀ cl ∈ cellsP p, cl ∉ cellsP q

/-- Pixel (r, c) lies in the rectangular region of a placement. -/
def inRegion (p : Placement) (r c : Nat) : Prop :=
  p.y ≤ r ∧ r < p.y + p.h ∧ p.x ≤ c ∧ c < p.x + p.w

/-- Mutable state of one frame's scan: claimed cells, object library and
the placements emitted so far. -/
structure ScanState where
  covered : List (Nat × Nat)
  lib : List Content
  pls : List Placement

/-- No cell of the candidate is already claimed. -/
def freeOK (covered : List (Nat × Nat)) (cells : List (Nat × Nat)) : Bool :=
  cells.all fun cl => decide (cl ∉ covered)

/-- Modelled from the spec: §4.5 step 2 — if no cell of the candidate is
claimed yet and the density classifier accepts its content, canonicalize,
deduplicate into the library, emit a placement record and mark the
covered cells as consumed; otherwise leave the state unchanged. -/
def scanStep (f : Frame) (t : ℚ) (st : ScanState) (cand : Cand) : ScanState :=
  let cl := cellsOf cand.x cand.y cand.w cand.h
  let content := extract f cand.x cand.y cand.w cand.h
  if freeOK st.covered cl && densityOK content t then
    let ko := canonicalize content
    let pl := lookupOrInsert st.lib ko.1
    ⟨st.covered ++ cl, pl.2, st.pls ++ [⟨cand.x, cand.y, cand.w, cand.h, pl.1, ko.2⟩]⟩
  else st

/-- Modelled from the spec: §4.5 Object Generator (absent from the
excerpt) — scan one frame coarse-to-fine over all candidates, starting
from a given (shared, inter-scan) library. -/
def scanFrame (f : Frame) (t : ℚ) (lib0 : List Content) : List Content × List Placement :=
  let st := (candidates f.width f.height).foldl (scanStep f t) ⟨[], lib0, []⟩
  (st.lib, st.pls)

/-- Modelled from the spec: §4.5 — process a batch of frames in order,
sharing one deduplication library across the batch (inter-scan), and
collect each frame's placements. -/
def processFrames : List Frame → ℚ → List Content → List Content × List (List Placement)
  | [], _, lib => (lib, [])
  | f :: fs, t, lib =>
    let r1 := scanFrame f t lib
    let r2 := processFrames fs t r1.1
    (r2.1, r1.2 :: r2.2)

/-- Modelled from the spec: §7 Error kinds relevant to the forward
pipeline entry point. -/
inductive GenError where
  | emptyInput
  | dimensionMismatch
deriving DecidableEq

/-- Modelled from the spec: §4.5 / §6 `generate_objects` — validate the
input shape up front (zero frames, then frame alignment), then scan the
whole batch. -/
def ogProcess (frames : List Frame) (t : ℚ) :
    Except GenError (List Content × List (List Placement)) :=
  if frames.isEmpty then .error .emptyInput
  else if frames.all dimsOK then .ok (processFrames frames t [])
  else .error .dimensionMismatch

/-- Modelled from the spec: §4.6 step 2 — composite a content matrix into
a buffer at position (x, y); inside the pasted rectangle the matrix value
overwrites the buffer, elsewhere the buffer shows through. -/
def paste (buf : Nat → Nat → Nat) (m : Content) (x y : Nat) : Nat → Nat → Nat :=
  fun r c =>
    if y ≤ r ∧ r < y + m.length ∧ x ≤ c ∧ c < x + (m.getD (r - y) []).length then
      (m.getD (r - y) []).getD (c - x) 0
    else buf r c

/-- Modelled from the spec: §4.6 — starting from an empty buffer,
composite every placement in order (`avoid_overlap = "none"`: later
placements overwrite earlier ones), re-orienting each object by the
recorded orientation. -/
def composite (lib : List Content) (pls : List Placement) : Nat → Nat → Nat :=
  pls.foldl
    (fun buf p => paste buf (applyOrient (inverseOrient p.orient) (lib.getD p.objId [])) p.x p.y)
    (fun _ _ => 0)

/-- Modelled from the spec: §4.6 Frames Generator / §6 `generate_frames`
(absent from the excerpt) — reconstruct each frame's raster buffer from
the library, its placements and its declared dimensions. -/
def fgProcess (lib : List Content) (plss : List (List Placement))
    (dims : List (Nat × Nat)) : List Frame :=
  (plss.zip dims).map fun pd => ⟨pd.2.1, pd.2.2, composite lib pd.1⟩

/-- Bit-for-bit equality of two frames on their declared dimensions. -/
def FrameEq (f g : Frame) : Prop :=
  f.width = g.width ∧ f.height = g.height ∧
    ∀ r, r < f.height → ∀ c, c < f.width → f.px r c = g.px r c

/-- Total number of placements (accepted chunks) the forward pipeline
emits for a batch, zero when the pipeline rejects the input. -/
def numPlacements (frames : List Frame) (t : ℚ) : Nat :=
  match ogProcess frames t with
  | .ok out => (out.2.map List.length).sum
  | .error _ => 0

/-- The paste condition of `composite` for placement `p` at pixel (r, c):
the pixel falls inside the pasted matrix of `p`. -/
def pasteHits (lib : List Content) (p : Placement) (r c : Nat) : Prop :=
  p.y ≤ r ∧ r < p.y + (applyOrient (inverseOrient p.orient) (lib.getD p.objId [])).length ∧
    p.x ≤ c ∧
    c < p.x + ((applyOrient (inverseOrient p.orient) (lib.getD p.objId [])).getD (r - p.y) []).length

/-- Everything the scan guarantees about one emitted placement: grid
alignment, fitting inside the frame, and that re-orienting the stored
object recovers exactly the extracted region content. -/
def PlacementOK (f : Frame) (lib : List Content) (p : Placement) : Prop :=
  p.x % TILE_SIZE = 0 ∧ p.y % TILE_SIZE = 0 ∧ p.w % TILE_SIZE = 0 ∧ p.h % TILE_SIZE = 0 ∧
    0 < p.w ∧ 0 < p.h ∧ p.x + p.w ≤ f.width ∧ p.y + p.h ≤ f.height ∧
    p.objId < lib.length ∧
    applyOrient (inverseOrient p.orient) (lib.getD p.objId []) = extract f p.x p.y p.w p.h

/-- The per-frame coverage hypothesis of the amended round-trip claim:
every non-empty pixel of the frame lies in some placement's region. -/
def CoversContent (f : Frame) (pls : List Placement) : Prop :=
  ∀ r, r < f.height → ∀ c, c < f.width → f.px r c ≠ 0 → ∃ p ∈ pls, inRegion p r c

/-- Scan-state invariant used to verify one frame's scan: the library
only grows from its inter-scan seed, every emitted placement is sound for
the current library with all its cells claimed, and the emitted
placements claim pairwise disjoint cell sets. -/
def ScanInv (f : Frame) (lib0 : List Content) (st : ScanState) : Prop :=
  (∃ zs, st.lib = lib0 ++ zs) ∧
    (∀ p ∈ st.pls, PlacementOK f st.lib p ∧ cellsP p ⊆ st.covered) ∧
    List.Pairwise cellDisjoint st.pls

/-- The all-opaque 8×8 test frame. -/
def onesFrame : Frame := ⟨8, 8, fun _ _ => 1⟩

/-- An 8×8 frame whose only non-empty pixel is at (0, 0): its content is
below every positive density threshold, so the scan emits nothing. -/
def dotFrame : Frame := ⟨8, 8, fun r c => if r = 0 ∧ c = 0 then 1 else 0⟩

/-- A 16×16 frame that is opaque exactly on the two diagonal 8×8 blocks:
every row and column of the whole frame has density exactly 1/2. -/
def diagFrame : Frame :=
  ⟨16, 16, fun r c => if (decide (r < 8)) == (decide (c < 8)) then 1 else 0⟩

instance (p : Placement) (r c : Nat) : Decidable (inRegion p r c) := by
  unfold inRegion; infer_instance

instance (f : Frame) (pls : List Placement) : Decidable (CoversContent f pls) := by
  unfold CoversContent; infer_instance

theorem applyOrient_involutive (o : Nat × Nat) (m : Content) :
    applyOrient o (applyOrient o m) = m := by
  unfold applyOrient
  by_cases h1 : o.1 = 1 <;> by_cases h2 : o.2 = 1 <;>
    simp [h1, h2, List.map_reverse, List.map_map, Function.comp_def]

theorem applyOrient_id (m : Content) : applyOrient (0, 0) m = m := by
  simp [applyOrient]

theorem canonicalize_fold_spec (m : Content) :
    ∀ (os : List (Nat × Nat)) (best : Content × (Nat × Nat)),
      best.1 = applyOrient best.2 m →
      (os.foldl
        (fun best o =>
          let cand := applyOrient o m
          if contentLt cand best.1 then (cand, o) else best) best).1 =
        applyOrient
          (os.foldl
            (fun best o =>
              let cand := applyOrient o m
              if contentLt cand best.1 then (cand, o) else best) best).2 m ∧
      ((os.foldl
        (fun best o =>
          let cand := applyOrient o m
          if contentLt cand best.1 then (cand, o) else best) best).2 = best.2 ∨
        (os.foldl
          (fun best o =>
            let cand := applyOrient o m
            if contentLt cand best.1 then (cand, o) else best) best).2 ∈ os) := by
  intro os
  induction os with
  | nil => intro best h; exact ⟨h, Or.inl rfl⟩
  | cons o rest ih =>
    intro best h
    simp only [List.foldl_cons]
    by_cases hc : contentLt (applyOrient o m) best.1
    · simp only [hc, if_pos]
      rcases ih (applyOrient o m, o) rfl with ⟨h1, h2⟩
      refine ⟨h1, ?_⟩
      rcases h2 with h2 | h2
      · exact Or.inr (by simp [h2])
      · exact Or.inr (List.mem_cons_of_mem _ h2)
    · simp only [hc, if_neg, Bool.false_eq_true, not_false_iff]
      rcases ih best h with ⟨h1, h2⟩
      refine ⟨h1, ?_⟩
      rcases h2 with h2 | h2
      · exact Or.inl h2
      · exact Or.inr (List.mem_cons_of_mem _ h2)

theorem canonicalize_orient_mem (m : Content) :
    (canonicalize m).2 ∈ orientationCodes := by
  rcases canonicalize_fold_spec m orientationCodes (m, (0, 0)) (applyOrient_id m).symm
    with ⟨_, h2⟩
  rcases h2 with h2 | h2
  · have h0 : (canonicalize m).2 = ((0 : Nat), (0 : Nat)) := h2
    rw [h0]; decide
  · exact h2

theorem canonicalize_canonical_eq (m : Content) :
    (canonicalize m).1 = applyOrient (canonicalize m).2 m :=
  (canonicalize_fold_spec m orientationCodes (m, (0, 0)) (applyOrient_id m).symm).1

/-- C3. Orientation inverse law: canonicalization records one of the four
orientations, and applying the inverse of the recorded orientation to the
canonical content reproduces the chunk's original content bit-exactly. -/
theorem orientation_inverse_law (m : Content) :
    (canonicalize m).2 ∈ orientationCodes ∧
      applyOrient (inverseOrient (canonicalize m).2) (canonicalize m).1 = m := by
  refine ⟨canonicalize_orient_mem m, ?_⟩
  rw [inverseOrient, canonicalize_canonical_eq m]
  exact applyOrient_involutive _ m

/-- C9. Canonicalization idempotence: a chunk whose content is already in
canonical form (no symmetry transform of it precedes it in the canonical
order) is returned unchanged, with the orientation recorded as
`original`, i.e. the bit pair `(0, 0)`. -/
theorem canonicalize_idempotent (m : Content)
    (h : ∀ o ∈ orientationCodes, contentLt (applyOrient o m) m = false) :
    canonicalize m = (m, (0, 0)) := by
  have key : ∀ (os : List (Nat × Nat)), (∀ o ∈ os, contentLt (applyOrient o m) m = false) →
      (os.foldl
        (fun best o =>
          let cand := applyOrient o m
          if contentLt cand best.1 then (cand, o) else best) ((m : Content), ((0 : Nat), (0 : Nat)))) =
        (m, (0, 0)) := by
    intro os
    induction os with
    | nil => intro _; rfl
    | cons o rest ih =>
      intro hall
      simp only [List.foldl_cons]
      have hco : contentLt (applyOrient o m) m = false := hall o (List.mem_cons_self o rest)
      simp only [hco, Bool.false_eq_true, if_neg, not_false_iff]
      exact ih fun o' ho' => hall o' (List.mem_cons_of_mem _ ho')
  exact key orientationCodes h

/-- Witness for C9 at a concrete already-canonical chunk. -/
theorem canonicalize_idempotent_witness :
    canonicalize [[0, 1], [1, 1]] = ([[0, 1], [1, 1]], (0, 0)) :=
  canonicalize_idempotent [[0, 1], [1, 1]] (by decide)

/-- C2. Grid-geometry constants: the base cell is 8 pixels; the chunk-size
hierarchy starts at 64×64, ends at 8×8, contains the non-square sizes
64×32, 32×8 and 16×8, every width and height is a whole multiple of the
base cell size, and the list is ordered from largest to smallest (area
non-increasing). -/
theorem grid_geometry_constants :
    TILE_SIZE = 8 ∧
      CHUNK_SIZES.head? = some (64, 64) ∧
      CHUNK_SIZES.getLast? = some (8, 8) ∧
      (CHUNK_SIZES.contains (64, 32) && CHUNK_SIZES.contains (32, 8) &&
        CHUNK_SIZES.contains (16, 8)) = true ∧
      CHUNK_SIZES.all (fun s => s.1 % TILE_SIZE == 0 && s.2 % TILE_SIZE == 0) = true ∧
      (CHUNK_SIZES.zip CHUNK_SIZES.tail).all
        (fun p => decide (p.2.1 * p.2.2 ≤ p.1.1 * p.1.2)) = true := by
  decide

/-- C10. The chunk-size hierarchy is closed under transposition: for every
(width, height) pair in `CHUNK_SIZES`, the pair (height, width) is also in
`CHUNK_SIZES`. -/
theorem chunk_sizes_transpose_closed :
    CHUNK_SIZES.all (fun s => CHUNK_SIZES.contains (s.2, s.1)) = true := by
  decide

theorem densityCmp_iff_mul (t : ℚ) (count len : Nat) :
    densityCmp t count len = true ↔ t * (len : ℚ) ≤ (count : ℚ) := by
  have hden : (0 : ℚ) < (t.den : ℚ) := by exact_mod_cast t.den_pos
  have hnd : (t.num : ℚ) = t * (t.den : ℚ) := (div_eq_iff hden.ne').mp (Rat.num_div_den t)
  unfold densityCmp
  rw [decide_eq_true_iff]
  constructor
  · intro h
    have h' : (t.num : ℚ) * (len : ℚ) ≤ (count : ℚ) * (t.den : ℚ) := by exact_mod_cast h
    rw [hnd, mul_right_comm] at h'
    exact le_of_mul_le_mul_right h' hden
  · intro h
    have h' : (t.num : ℚ) * (len : ℚ) ≤ (count : ℚ) * (t.den : ℚ) := by
      rw [hnd, mul_right_comm]
      exact mul_le_mul_of_nonneg_right h hden.le
    exact_mod_cast h'

theorem densityCmp_iff (t : ℚ) (count len : Nat) (hlen : 0 < len) :
    densityCmp t count len = true ↔ t ≤ (count : ℚ) / (len : ℚ) := by
  have hlenq : (0 : ℚ) < (len : ℚ) := by exact_mod_cast hlen
  rw [densityCmp_iff_mul, le_div_iff₀ hlenq]

theorem le_minQ (t : ℚ) : ∀ l : List ℚ, l ≠ [] → (t ≤ minQ l ↔ ∀ x ∈ l, t ≤ x)
  | [], h => absurd rfl h
  | [a], _ => by simp [minQ]
  | a :: b :: rest, _ => by
    show t ≤ min a (minQ (b :: rest)) ↔ _
    rw [le_min_iff, le_minQ t (b :: rest) (by simp)]
    simp [List.forall_mem_cons]

theorem rowsDense_iff (m : Content) (t : ℚ) (h : ∀ r ∈ m, 0 < r.length) :
    rowsDense m t = true ↔ ∀ d ∈ lineDensities m, t ≤ d := by
  unfold rowsDense lineDensities
  rw [List.all_eq_true]
  constructor
  · intro h' d hd
    rcases List.mem_map.mp hd with ⟨r, hr, rfl⟩
    exact (densityCmp_iff t _ _ (h r hr)).mp (h' r hr)
  · intro h' r hr
    exact (densityCmp_iff t _ _ (h r hr)).mpr (h' _ (List.mem_map_of_mem _ hr))

theorem columnsOf_length (m : Content) (w : Nat) (hne : m ≠ [])
    (hrect : ∀ r ∈ m, r.length = w) : (columnsOf m).length = w := by
  rcases m with _ | ⟨r, rs⟩
  · exact absurd rfl hne
  · simp only [columnsOf, List.length_map, List.length_range, List.headD_cons]
    exact hrect r (List.mem_cons_self r rs)

theorem columnsOf_line_length (m : Content) :
    ∀ c ∈ columnsOf m, c.length = m.length := by
  intro c hc
  rcases List.mem_map.mp hc with ⟨j, _, rfl⟩
  exact List.length_map m _

/-- C4. Density classifier acceptance rule: for a nonempty rectangular
chunk and a threshold in [0,1], the classifier accepts the chunk iff the
minimum row density and the minimum column density both reach the
threshold (so one sparse row or column forces rejection regardless of
overall fill). -/
theorem density_classifier_minimum (m : Content) (w : Nat) (t : ℚ)
    (hne : m ≠ []) (hw : 0 < w) (hrect : ∀ r ∈ m, r.length = w)
    (ht0 : 0 ≤ t) (ht1 : t ≤ 1) :
    densityOK m t = true ↔
      t ≤ minQ (lineDensities m) ∧ t ≤ minQ (lineDensities (columnsOf m)) := by
  have hrow : ∀ r ∈ m, 0 < r.length := fun r hr => (hrect r hr) ▸ hw
  have hm : 0 < m.length := List.length_pos.mpr hne
  have hcolne : columnsOf m ≠ [] := by
    intro hnil
    have := columnsOf_length m w hne hrect
    rw [hnil] at this
    simp at this
    omega
  have hcol : ∀ c ∈ columnsOf m, 0 < c.length := fun c hc =>
    (columnsOf_line_length m c hc) ▸ hm
  have hmapne : lineDensities m ≠ [] := by
    unfold lineDensities
    simpa using hne
  have hmapcolne : lineDensities (columnsOf m) ≠ [] := by
    unfold lineDensities
    simpa using hcolne
  unfold densityOK
  rw [Bool.and_eq_true, rowsDense_iff m t hrow, rowsDense_iff (columnsOf m) t hcol,
    le_minQ t _ hmapne, le_minQ t _ hmapcolne]

/-- Witness for C4: a 2×8 chunk whose top row is fully opaque and whose
bottom row is empty (7/8 overall fill, but a sparse row). -/
theorem density_classifier_minimum_witness :
    densityOK [[1, 1, 1, 1, 1, 1, 1, 1], [0, 0, 0, 0, 0, 0, 0, 0]] (mkRat 1 2) = true ↔
      mkRat 1 2 ≤ minQ (lineDensities [[1, 1, 1, 1, 1, 1, 1, 1], [0, 0, 0, 0, 0, 0, 0, 0]]) ∧
      mkRat 1 2 ≤ minQ (lineDensities (columnsOf
        [[1, 1, 1, 1, 1, 1, 1, 1], [0, 0, 0, 0, 0, 0, 0, 0]])) :=
  density_classifier_minimum _ 8 (mkRat 1 2) (by decide) (by decide) (by decide)
    (by rw [Rat.mkRat_eq_div]; norm_num) (by rw [Rat.mkRat_eq_div]; norm_num)

theorem lookupOrInsert_not_mem (x : Content) :
    ∀ lib : List Content, x ∉ lib → lookupOrInsert lib x = (lib.length, lib ++ [x])
  | [], _ => rfl
  | y :: ys, h => by
    have hyx : ¬ y = x := fun he => h (he ▸ List.mem_cons_self y ys)
    have hx : x ∉ ys := fun hm => h (List.mem_cons_of_mem _ hm)
    simp only [lookupOrInsert, hyx, if_neg, not_false_iff,
      lookupOrInsert_not_mem x ys hx, List.length_cons, List.cons_append]

theorem lookupOrInsert_append_self (x : Content) :
    ∀ lib : List Content, x ∉ lib →
      lookupOrInsert (lib ++ [x]) x = (lib.length, lib ++ [x])
  | [], _ => by simp [lookupOrInsert]
  | y :: ys, h => by
    have hyx : ¬ y = x := fun he => h (he ▸ List.mem_cons_self y ys)
    have hx : x ∉ ys := fun hm => h (List.mem_cons_of_mem _ hm)
    simp only [List.cons_append, lookupOrInsert, hyx, if_neg, not_false_iff,
      List.append_eq, lookupOrInsert_append_self x ys hx, List.length_cons]

theorem lookupOrInsert_append_of_mem (x : Content) :
    ∀ (lib zs : List Content), x ∈ lib →
      lookupOrInsert (lib ++ zs) x = ((lookupOrInsert lib x).1, lib ++ zs)
  | [], _, h => absurd h (List.not_mem_nil x)
  | y :: ys, zs, h => by
    by_cases hyx : y = x
    · simp [lookupOrInsert, hyx]
    · have hx : x ∈ ys := by
        rcases List.mem_cons.mp h with h' | h'
        · exact absurd h'.symm hyx
        · exact h'
      simp only [List.cons_append, lookupOrInsert, hyx, if_neg, not_false_iff,
        List.append_eq, lookupOrInsert_append_of_mem x ys zs hx]

theorem lookupOrInsert_snd_cases (x : Content) :
    ∀ lib : List Content, (lookupOrInsert lib x).2 = lib ∨
      (lookupOrInsert lib x).2 = lib ++ [x] := by
  intro lib
  by_cases hx : x ∈ lib
  · left
    rcases List.append_of_mem hx with ⟨s, u, rfl⟩
    have hmem : x ∈ s ++ [x] := by simp
    have h2 := lookupOrInsert_append_of_mem x (s ++ [x]) u hmem
    rw [List.append_assoc, List.singleton_append] at h2
    rw [h2]
  · right
    rw [lookupOrInsert_not_mem x lib hx]

theorem insertAll_extends (ys : List Content) :
    ∀ lib : List Content, ∃ zs, insertAll lib ys = lib ++ zs := by
  induction ys with
  | nil => intro lib; exact ⟨[], by simp [insertAll]⟩
  | cons y ys ih =>
    intro lib
    have hstep := lookupOrInsert_snd_cases y lib
    rcases ih ((lookupOrInsert lib y).2) with ⟨zs, hzs⟩
    rcases hstep with h | h
    · exact ⟨zs, by simpa [insertAll, h] using hzs⟩
    · exact ⟨[y] ++ zs, by
        rw [← List.append_assoc]
        simpa [insertAll, h] using hzs⟩

/-- C5. Dedup stability: inserting the same canonical content a second
time (after any batch of interleaved insertions) returns the same object
id as the first insertion, and across both insertions the library grows
by exactly one net new object; the id therefore does not depend on what
the scan inserts in between. -/
theorem dedup_stable (lib : List Content) (x : Content) (ys : List Content)
    (h : x ∉ lib) :
    (lookupOrInsert (lookupOrInsert lib x).2 x).1 = (lookupOrInsert lib x).1 ∧
      (lookupOrInsert (lookupOrInsert lib x).2 x).2.length = lib.length + 1 ∧
      (lookupOrInsert (insertAll (lookupOrInsert lib x).2 ys) x).1 =
        (lookupOrInsert lib x).1 := by
  have h1 := lookupOrInsert_not_mem x lib h
  have h2 := lookupOrInsert_append_self x lib h
  refine ⟨?_, ?_, ?_⟩
  · rw [h1]
    show (lookupOrInsert (lib ++ [x]) x).1 = lib.length
    rw [h2]
  · rw [h1]
    show (lookupOrInsert (lib ++ [x]) x).2.length = lib.length + 1
    rw [h2]
    simp
  · rw [h1]
    show (lookupOrInsert (insertAll (lib ++ [x]) ys) x).1 = lib.length
    rcases insertAll_extends ys (lib ++ [x]) with ⟨zs, hzs⟩
    rw [hzs, lookupOrInsert_append_of_mem x (lib ++ [x]) zs (by simp), h2]

/-- Witness for C5 at a concrete library and contents. -/
theorem dedup_stable_witness :
    (lookupOrInsert (lookupOrInsert [[[5]]] [[1]]).2 [[1]]).1 =
        (lookupOrInsert ([[[5]]] : List Content) [[1]]).1 ∧
      (lookupOrInsert (lookupOrInsert [[[5]]] [[1]]).2 [[1]]).2.length =
        ([[[5]]] : List Content).length + 1 ∧
      (lookupOrInsert (insertAll (lookupOrInsert [[[5]]] [[1]]).2 [[[2]]]) [[1]]).1 =
        (lookupOrInsert ([[[5]]] : List Content) [[1]]).1 :=
  dedup_stable [[[5]]] [[1]] [[[2]]] (by decide)

theorem foldl_scanStep_no_accept (g : Frame) (t : ℚ) :
    ∀ (cands : List Cand) (st : ScanState),
      (∀ cand ∈ cands, densityOK (extract g cand.x cand.y cand.w cand.h) t = false) →
      cands.foldl (scanStep g t) st = st := by
  intro cands
  induction cands with
  | nil => intro st _; rfl
  | cons c cs ih =>
    intro st hall
    simp only [List.foldl_cons]
    have hd := hall c (List.mem_cons_self c cs)
    have hstep : scanStep g t st c = st := by
      unfold scanStep
      simp [hd]
    rw [hstep]
    exact ih st fun c' hc' => hall c' (List.mem_cons_of_mem _ hc')

/-- C8. Forward-pipeline input errors: a batch containing a frame whose
dimensions are below the base cell size or misaligned to it is rejected
with a dimension-mismatch error, while a well-dimensioned frame in which
no candidate chunk passes the density classifier yields an `ok` result
with zero placements. -/
theorem forward_input_errors (frames : List Frame) (t : ℚ) (g : Frame)
    (hbad : ∃ f ∈ frames, dimsOK f = false)
    (hg : dimsOK g = true)
    (hq : ∀ cand ∈ candidates g.width g.height,
      densityOK (extract g cand.x cand.y cand.w cand.h) t = false) :
    ogProcess frames t = .error .dimensionMismatch ∧ ogProcess [g] t = .ok ([], [[]]) := by
  obtain ⟨f0, hf0, hdf0⟩ := hbad
  constructor
  · have hne : frames.isEmpty = false := by
      cases frames with
      | nil => cases hf0
      | cons a l => rfl
    have hall : frames.all dimsOK = false := by
      cases hall : frames.all dimsOK with
      | false => rfl
      | true => exact absurd (List.all_eq_true.mp hall f0 hf0) (by simp [hdf0])
    simp [ogProcess, hne, hall]
  · have h1 : scanFrame g t [] = ([], []) := by
      unfold scanFrame
      rw [foldl_scanStep_no_accept g t _ _ hq]
    simp [ogProcess, hg, processFrames, h1]

/-- Witness for C8: a 7×8 frame is rejected as misaligned; an all-empty
8×8 frame produces zero placements without an error. -/
theorem forward_input_errors_witness :
    ogProcess [⟨7, 8, fun _ _ => 0⟩] (mkRat 1 2) = .error .dimensionMismatch ∧
      ogProcess [⟨8, 8, fun _ _ => 0⟩] (mkRat 1 2) = .ok ([], [[]]) :=
  forward_input_errors [⟨7, 8, fun _ _ => 0⟩] (mkRat 1 2) ⟨8, 8, fun _ _ => 0⟩
    ⟨⟨7, 8, fun _ _ => 0⟩, List.mem_cons_self _ _, by decide⟩ (by decide) (by decide)

/-- C7 counterexample: on the two-block diagonal 16×16 frame, raising the
threshold from 1/2 to 3/5 makes the whole-frame 16×16 chunk fail, so the
scan falls through to two accepted 8×8 chunks — the number of accepted
chunks increases from 1 to 2. -/
theorem density_monotonicity_counterexample :
    mkRat 1 2 ≤ mkRat 3 5 ∧
      numPlacements [diagFrame] (mkRat 1 2) = 1 ∧
      numPlacements [diagFrame] (mkRat 3 5) = 2 := by
  refine ⟨by decide, by decide, by decide⟩

theorem densityCmp_mono {t t' : ℚ} (h : t ≤ t') (count len : Nat)
    (hc : densityCmp t' count len = true) : densityCmp t count len = true :=
  (densityCmp_iff_mul t count len).mpr
    (le_trans (mul_le_mul_of_nonneg_right h (Nat.cast_nonneg len))
      ((densityCmp_iff_mul t' count len).mp hc))

theorem densityOK_mono {t t' : ℚ} (h : t ≤ t') (m : Content)
    (hm : densityOK m t' = true) : densityOK m t = true := by
  unfold densityOK rowsDense at hm ⊢
  rw [Bool.and_eq_true, List.all_eq_true, List.all_eq_true] at hm ⊢
  exact ⟨fun r hr => densityCmp_mono h _ _ (hm.1 r hr),
    fun c hc => densityCmp_mono h _ _ (hm.2 c hc)⟩

/-- C7 amended: the density classifier itself is monotone — over any
fixed collection of candidate chunk contents, raising the threshold never
increases the number of chunks the classifier accepts (the placement
count of the full scan, however, is not monotone, because a rejected
large chunk frees its cells for smaller chunks). -/
theorem classifier_count_monotone (chunks : List Content) (t t' : ℚ) (h : t ≤ t') :
    chunks.countP (fun m => densityOK m t') ≤ chunks.countP (fun m => densityOK m t) :=
  List.countP_mono_left fun m _ hm => densityOK_mono h m hm

/-- Witness for the amended C7 at a concrete chunk list and thresholds. -/
theorem classifier_count_monotone_witness :
    ([[[1, 1]], [[1, 0]]] : List Content).countP (fun m => densityOK m (mkRat 3 5)) ≤
      ([[[1, 1]], [[1, 0]]] : List Content).countP (fun m => densityOK m (mkRat 1 2)) :=
  classifier_count_monotone _ (mkRat 1 2) (mkRat 3 5) (by decide)

theorem foldl_inv {α σ : Type _} (step : σ → α → σ) (P : σ → Prop) :
    ∀ (l : List α) (s : σ), P s → (∀ s' a, a ∈ l → P s' → P (step s' a)) →
      P (l.foldl step s) := by
  intro l
  induction l with
  | nil => intro s hs _; exact hs
  | cons a as ih =>
    intro s hs hstep
    exact ih (step s a) (hstep s a (List.mem_cons_self a as) hs)
      fun s' b hb => hstep s' b (List.mem_cons_of_mem _ hb)

theorem chunk_sizes_aligned :
    ∀ s ∈ CHUNK_SIZES, s.1 % 8 = 0 ∧ s.2 % 8 = 0 ∧ 0 < s.1 ∧ 0 < s.2 := by
  decide

theorem dimsOK_spec (f : Frame) (h : dimsOK f = true) :
    TILE_SIZE ≤ f.width ∧ TILE_SIZE ≤ f.height ∧
      f.width % TILE_SIZE = 0 ∧ f.height % TILE_SIZE = 0 := by
  simp only [dimsOK, Bool.and_eq_true, beq_iff_eq, decide_eq_true_iff] at h
  exact ⟨h.1.1.1, h.1.1.2, h.1.2, h.2⟩

theorem candidates_spec (W H : Nat) (hW : W % TILE_SIZE = 0) (hH : H % TILE_SIZE = 0) :
    ∀ cand ∈ candidates W H,
      cand.x % TILE_SIZE = 0 ∧ cand.y % TILE_SIZE = 0 ∧
        cand.w % TILE_SIZE = 0 ∧ cand.h % TILE_SIZE = 0 ∧
        0 < cand.w ∧ 0 < cand.h ∧ cand.x + cand.w ≤ W ∧ cand.y + cand.h ≤ H := by
  intro cand hc
  unfold candidates at hc
  rcases List.mem_flatMap.mp hc with ⟨s, hs, hin⟩
  by_cases hfit : (s.1 ≤ W && s.2 ≤ H) = true
  case neg => rw [if_neg hfit] at hin; cases hin
  case pos =>
    rw [if_pos hfit] at hin
    rcases List.mem_flatMap.mp hin with ⟨j, hj, hin2⟩
    rcases List.mem_map.mp hin2 with ⟨i, hi, rfl⟩
    rw [List.mem_range] at hj hi
    rw [Bool.and_eq_true, decide_eq_true_iff, decide_eq_true_iff] at hfit
    obtain ⟨hsW, hsH⟩ := hfit
    obtain ⟨hs1, hs2, hs3, hs4⟩ := chunk_sizes_aligned s hs
    simp only [TILE_SIZE] at hW hH hj hi ⊢
    refine ⟨by omega, by omega, hs1, hs2, hs3, hs4, by omega, by omega⟩

theorem mem_cellsOf (x y w h cx cy : Nat) :
    (cx, cy) ∈ cellsOf x y w h ↔
      x / TILE_SIZE ≤ cx ∧ cx < x / TILE_SIZE + w / TILE_SIZE ∧
        y / TILE_SIZE ≤ cy ∧ cy < y / TILE_SIZE + h / TILE_SIZE := by
  unfold cellsOf
  constructor
  · intro hm
    rcases List.mem_flatMap.mp hm with ⟨j, hj, hm2⟩
    rcases List.mem_map.mp hm2 with ⟨i, hi, heq⟩
    rw [List.mem_range] at hj hi
    rw [Prod.mk.injEq] at heq
    omega
  · intro hb
    refine List.mem_flatMap.mpr ⟨cy - y / TILE_SIZE, List.mem_range.mpr (by omega),
      List.mem_map.mpr ⟨cx - x / TILE_SIZE, List.mem_range.mpr (by omega), ?_⟩⟩
    rw [Prod.mk.injEq]
    omega

theorem pixelCell_mem (p : Placement) (r c : Nat)
    (hx : p.x % TILE_SIZE = 0) (hy : p.y % TILE_SIZE = 0)
    (hw : p.w % TILE_SIZE = 0) (hh : p.h % TILE_SIZE = 0)
    (hr : inRegion p r c) :
    (c / TILE_SIZE, r / TILE_SIZE) ∈ cellsP p := by
  unfold inRegion at hr
  unfold cellsP
  rw [mem_cellsOf]
  simp only [TILE_SIZE] at hx hy hw hh ⊢
  omega

theorem lookupOrInsert_getD : ∀ (lib : List Content) (x : Content),
    (lookupOrInsert lib x).1 < (lookupOrInsert lib x).2.length ∧
      (lookupOrInsert lib x).2.getD (lookupOrInsert lib x).1 [] = x
  | [], x => by simp [lookupOrInsert]
  | y :: ys, x => by
    by_cases hyx : y = x
    · simp [lookupOrInsert, hyx]
    · have ih := lookupOrInsert_getD ys x
      simp only [lookupOrInsert, hyx, if_neg, not_false_iff]
      refine ⟨by simpa using Nat.succ_lt_succ ih.1, ?_⟩
      simpa [List.getD_cons_succ] using ih.2

theorem getD_append_of_lt (l l' : List Content) (n : Nat) (h : n < l.length) :
    (l ++ l').getD n [] = l.getD n [] := by
  rw [List.getD_eq_getElem _ _ (by simp; omega), List.getD_eq_getElem _ _ h,
    List.getElem_append_left h]

theorem PlacementOK_mono (f : Frame) (lib zs : List Content) (p : Placement)
    (h : PlacementOK f lib p) : PlacementOK f (lib ++ zs) p := by
  obtain ⟨h1, h2, h3, h4, h5, h6, h7, h8, h9, h10⟩ := h
  refine ⟨h1, h2, h3, h4, h5, h6, h7, h8, ?_, ?_⟩
  · rw [List.length_append]; omega
  · rw [getD_append_of_lt lib zs p.objId h9]; exact h10

theorem freeOK_spec (covered cells : List (Nat × Nat)) (h : freeOK covered cells = true) :
    ∀ cl ∈ cells, cl ∉ covered := by
  intro cl hcl
  have := List.all_eq_true.mp h cl hcl
  exact of_decide_eq_true this

theorem scanStep_inv (f : Frame) (t : ℚ) (lib0 : List Content)
    (hW : f.width % TILE_SIZE = 0) (hH : f.height % TILE_SIZE = 0)
    (st : ScanState) (cand : Cand) (hcand : cand ∈ candidates f.width f.height)
    (hinv : ScanInv f lib0 st) : ScanInv f lib0 (scanStep f t st cand) := by
  obtain ⟨⟨zs, hzs⟩, hpls, hpw⟩ := hinv
  unfold scanStep
  by_cases hacc : (freeOK st.covered (cellsOf cand.x cand.y cand.w cand.h) &&
      densityOK (extract f cand.x cand.y cand.w cand.h) t) = true
  case neg =>
    rw [if_neg hacc]
    exact ⟨⟨zs, hzs⟩, hpls, hpw⟩
  case pos =>
    rw [if_pos hacc]
    have hfree := freeOK_spec _ _ (by
      have h' := hacc
      rw [Bool.and_eq_true] at h'
      exact h'.1)
    obtain ⟨hx, hy, hw, hh, hwpos, hhpos, hxb, hyb⟩ :=
      candidates_spec f.width f.height hW hH cand hcand
    show ScanInv f lib0
      ⟨st.covered ++ cellsOf cand.x cand.y cand.w cand.h,
        (lookupOrInsert st.lib (canonicalize (extract f cand.x cand.y cand.w cand.h)).1).2,
        st.pls ++ [⟨cand.x, cand.y, cand.w, cand.h,
          (lookupOrInsert st.lib (canonicalize (extract f cand.x cand.y cand.w cand.h)).1).1,
          (canonicalize (extract f cand.x cand.y cand.w cand.h)).2⟩]⟩
    have hlk := lookupOrInsert_getD st.lib (canonicalize (extract f cand.x cand.y cand.w cand.h)).1
    have hext : ∃ zs', (lookupOrInsert st.lib
        (canonicalize (extract f cand.x cand.y cand.w cand.h)).1).2 = st.lib ++ zs' := by
      rcases lookupOrInsert_snd_cases (canonicalize
          (extract f cand.x cand.y cand.w cand.h)).1 st.lib with h | h
      · exact ⟨[], by simp [h]⟩
      · exact ⟨[(canonicalize (extract f cand.x cand.y cand.w cand.h)).1], h⟩
    obtain ⟨zs', hzs'⟩ := hext
    have hnewok : PlacementOK f
        (lookupOrInsert st.lib (canonicalize (extract f cand.x cand.y cand.w cand.h)).1).2
        ⟨cand.x, cand.y, cand.w, cand.h,
          (lookupOrInsert st.lib (canonicalize (extract f cand.x cand.y cand.w cand.h)).1).1,
          (canonicalize (extract f cand.x cand.y cand.w cand.h)).2⟩ := by
      refine ⟨hx, hy, hw, hh, hwpos, hhpos, hxb, hyb, hlk.1, ?_⟩
      show applyOrient (inverseOrient (canonicalize (extract f cand.x cand.y cand.w cand.h)).2)
          ((lookupOrInsert st.lib (canonicalize (extract f cand.x cand.y cand.w cand.h)).1).2.getD
            (lookupOrInsert st.lib (canonicalize (extract f cand.x cand.y cand.w cand.h)).1).1 [])
          = extract f cand.x cand.y cand.w cand.h
      rw [hlk.2, inverseOrient, canonicalize_canonical_eq (extract f cand.x cand.y cand.w cand.h)]
      exact applyOrient_involutive _ (extract f cand.x cand.y cand.w cand.h)
    refine ⟨⟨zs ++ zs', ?_⟩, ?_, ?_⟩
    · show (lookupOrInsert st.lib
        (canonicalize (extract f cand.x cand.y cand.w cand.h)).1).2 = lib0 ++ (zs ++ zs')
      rw [hzs', hzs, List.append_assoc]
    · intro p hp
      rcases List.mem_append.mp hp with hp | hp
      · obtain ⟨hok, hsub⟩ := hpls p hp
        refine ⟨?_, fun cl hcl => List.mem_append_left _ (hsub hcl)⟩
        show PlacementOK f (lookupOrInsert st.lib
          (canonicalize (extract f cand.x cand.y cand.w cand.h)).1).2 p
        rw [hzs']
        exact PlacementOK_mono f st.lib zs' p hok
      · rw [List.mem_singleton.mp hp]
        exact ⟨hnewok, fun cl hcl => List.mem_append_right _ hcl⟩
    · show List.Pairwise cellDisjoint (st.pls ++ [_])
      rw [List.pairwise_append]
      refine ⟨hpw, List.pairwise_singleton _ _, ?_⟩
      intro a ha b hb
      rw [List.mem_singleton.mp hb]
      intro cl hcl hclnew
      exact hfree cl hclnew ((hpls a ha).2 hcl)

theorem scanFrame_spec (f : Frame) (t : ℚ) (lib0 : List Content)
    (hW : f.width % TILE_SIZE = 0) (hH : f.height % TILE_SIZE = 0) :
    (∃ zs, (scanFrame f t lib0).1 = lib0 ++ zs) ∧
      (∀ p ∈ (scanFrame f t lib0).2, PlacementOK f (scanFrame f t lib0).1 p) ∧
      List.Pairwise cellDisjoint (scanFrame f t lib0).2 := by
  have h := foldl_inv (scanStep f t) (ScanInv f lib0) (candidates f.width f.height)
    ⟨[], lib0, []⟩
    ⟨⟨[], by simp⟩, by simp, List.Pairwise.nil⟩
    (fun st cand hc hinv => scanStep_inv f t lib0 hW hH st cand hc hinv)
  obtain ⟨hext, hpls, hpw⟩ := h
  exact ⟨hext, fun p hp => (hpls p hp).1, hpw⟩

theorem scanFrame_extends (f : Frame) (t : ℚ) (lib0 : List Content) :
    ∃ zs, (scanFrame f t lib0).1 = lib0 ++ zs := by
  have h := foldl_inv (scanStep f t) (fun st => ∃ zs, st.lib = lib0 ++ zs)
    (candidates f.width f.height) ⟨[], lib0, []⟩ ⟨[], by simp⟩ ?_
  · exact h
  · intro st cand _ ⟨zs, hzs⟩
    unfold scanStep
    by_cases hacc : (freeOK st.covered (cellsOf cand.x cand.y cand.w cand.h) &&
        densityOK (extract f cand.x cand.y cand.w cand.h) t) = true
    · rw [if_pos hacc]
      rcases lookupOrInsert_snd_cases (canonicalize
          (extract f cand.x cand.y cand.w cand.h)).1 st.lib with h | h
      · exact ⟨zs, by simpa [h] using hzs⟩
      · exact ⟨zs ++ [(canonicalize (extract f cand.x cand.y cand.w cand.h)).1], by
          show (lookupOrInsert st.lib _).2 = _
          rw [h, hzs, List.append_assoc]⟩
    · rw [if_neg hacc]
      exact ⟨zs, hzs⟩

theorem processFrames_extends : ∀ (fs : List Frame) (t : ℚ) (lib : List Content),
    ∃ zs, (processFrames fs t lib).1 = lib ++ zs
  | [], _, lib => ⟨[], by simp [processFrames]⟩
  | f :: fs, t, lib => by
    obtain ⟨zs1, hz1⟩ := scanFrame_extends f t lib
    obtain ⟨zs2, hz2⟩ := processFrames_extends fs t (scanFrame f t lib).1
    exact ⟨zs1 ++ zs2, by
      show (processFrames fs t (scanFrame f t lib).1).1 = lib ++ (zs1 ++ zs2)
      rw [hz2, hz1, List.append_assoc]⟩

theorem processFrames_spec : ∀ (fs : List Frame) (t : ℚ) (lib : List Content),
    (∀ f ∈ fs, dimsOK f = true) →
    List.Forall₂
      (fun f pls => List.Pairwise cellDisjoint pls ∧
        ∀ p ∈ pls, PlacementOK f (processFrames fs t lib).1 p)
      fs (processFrames fs t lib).2
  | [], _, _, _ => List.Forall₂.nil
  | f :: fs, t, lib, hall => by
    have hdf := hall f (List.mem_cons_self f fs)
    obtain ⟨_, _, hW, hH⟩ := dimsOK_spec f hdf
    obtain ⟨hext, hok, hpw⟩ := scanFrame_spec f t lib hW hH
    obtain ⟨zs2, hz2⟩ := processFrames_extends fs t (scanFrame f t lib).1
    have ih := processFrames_spec fs t (scanFrame f t lib).1
      fun g hg => hall g (List.mem_cons_of_mem _ hg)
    show List.Forall₂ _ (f :: fs)
      ((scanFrame f t lib).2 :: (processFrames fs t (scanFrame f t lib).1).2)
    refine List.Forall₂.cons ⟨hpw, ?_⟩ ?_
    · intro p hp
      show PlacementOK f (processFrames fs t (scanFrame f t lib).1).1 p
      rw [hz2]
      exact PlacementOK_mono f _ zs2 p (hok p hp)
    · exact ih

/-- C6. Coverage exclusivity: in every frame's scan produced by the
forward pipeline, no two accepted chunks claim overlapping grid cells —
a cell consumed by an earlier (larger) accepted chunk is never
re-claimed. -/
theorem forall2_mem_right {α β : Type _} {R : α → β → Prop} :
    ∀ {l₁ : List α} {l₂ : List β}, List.Forall₂ R l₁ l₂ → ∀ b ∈ l₂, ∃ a ∈ l₁, R a b := by
  intro l₁ l₂ h
  induction h with
  | nil => intro b hb; cases hb
  | @cons a b l₁ l₂ hr ht ih =>
    intro b' hb'
    rcases List.mem_cons.mp hb' with rfl | hb'
    · exact ⟨a, List.mem_cons_self _ _, hr⟩
    · rcases ih b' hb' with ⟨a', ha', hab⟩
      exact ⟨a', List.mem_cons_of_mem _ ha', hab⟩

theorem coverage_exclusivity (frames : List Frame) (t : ℚ) (lib : List Content)
    (plss : List (List Placement)) (hok : ogProcess frames t = .ok (lib, plss)) :
    ∀ pls ∈ plss, List.Pairwise cellDisjoint pls := by
  unfold ogProcess at hok
  by_cases h1 : frames.isEmpty = true
  · rw [if_pos h1] at hok; cases hok
  · rw [if_neg h1] at hok
    by_cases h2 : frames.all dimsOK = true
    · rw [if_pos h2] at hok
      injection hok with hok'
      have hall := List.all_eq_true.mp h2
      have hspec := processFrames_spec frames t [] hall
      have hplss : plss = (processFrames frames t []).2 := by rw [hok']
      intro pls hpls
      rw [hplss] at hpls
      rcases forall2_mem_right hspec pls hpls with ⟨f0, _, hpw, _⟩
      exact hpw
    · rw [if_neg h2] at hok; cases hok

/-- Witness for C6: the one-placement scan of the all-opaque 8×8 frame. -/
theorem coverage_exclusivity_witness :
    List.Pairwise cellDisjoint [(⟨0, 0, 8, 8, 0, (0, 0)⟩ : Placement)] :=
  coverage_exclusivity [onesFrame] (mkRat 1 2)
    [List.replicate 8 (List.replicate 8 1)] [[⟨0, 0, 8, 8, 0, (0, 0)⟩]] rfl
    [⟨0, 0, 8, 8, 0, (0, 0)⟩] (List.mem_cons_self _ _)

theorem range_map_getD {α : Type _} (n : Nat) (g : Nat → α) (d : α) (i : Nat) (hi : i < n) :
    ((List.range n).map g).getD i d = g i := by
  rw [List.getD_eq_getElem _ _ (by simpa using hi)]
  simp

theorem extract_length (f : Frame) (x y w h : Nat) : (extract f x y w h).length = h := by
  simp [extract]

theorem extract_row_length (f : Frame) (x y w h r' : Nat) (hr : r' < h) :
    ((extract f x y w h).getD r' []).length = w := by
  unfold extract
  rw [range_map_getD h _ [] r' hr]
  simp

theorem extract_entry (f : Frame) (x y w h r' c' : Nat) (hr : r' < h) (hc : c' < w) :
    ((extract f x y w h).getD r' []).getD c' 0 = f.px (y + r') (x + c') := by
  unfold extract
  rw [range_map_getD h _ [] r' hr, range_map_getD w _ 0 c' hc]

theorem pasteHits_iff (f : Frame) (lib : List Content) (p : Placement)
    (hok : PlacementOK f lib p) (r c : Nat) :
    pasteHits lib p r c ↔ inRegion p r c := by
  obtain ⟨_, _, _, _, _, _, _, _, _, hcontent⟩ := hok
  unfold pasteHits inRegion
  rw [hcontent, extract_length]
  constructor
  · rintro ⟨h1, h2, h3, h4⟩
    refine ⟨h1, h2, h3, ?_⟩
    rwa [extract_row_length f p.x p.y p.w p.h (r - p.y) (by omega)] at h4
  · rintro ⟨h1, h2, h3, h4⟩
    refine ⟨h1, h2, h3, ?_⟩
    rwa [extract_row_length f p.x p.y p.w p.h (r - p.y) (by omega)]

theorem foldl_paste_miss (lib : List Content) (r c : Nat) :
    ∀ (pls : List Placement) (buf : Nat → Nat → Nat),
      (∀ p ∈ pls, ¬ pasteHits lib p r c) →
      (pls.foldl (fun buf p =>
        paste buf (applyOrient (inverseOrient p.orient) (lib.getD p.objId [])) p.x p.y) buf) r c
        = buf r c
  | [], _, _ => rfl
  | q :: rest, buf, hmiss => by
    simp only [List.foldl_cons]
    rw [foldl_paste_miss lib r c rest _ fun p hp => hmiss p (List.mem_cons_of_mem _ hp)]
    have hq := hmiss q (List.mem_cons_self _ _)
    unfold pasteHits at hq
    simp only [paste]
    rw [if_neg hq]

theorem foldl_paste_hit (lib : List Content) (r c : Nat) :
    ∀ (pls : List Placement) (buf : Nat → Nat → Nat) (p : Placement),
      p ∈ pls → pasteHits lib p r c →
      (∀ q ∈ pls, pasteHits lib q r c → q = p) →
      (pls.foldl (fun buf p =>
        paste buf (applyOrient (inverseOrient p.orient) (lib.getD p.objId [])) p.x p.y) buf) r c
        = ((applyOrient (inverseOrient p.orient) (lib.getD p.objId [])).getD (r - p.y) []).getD
            (c - p.x) 0
  | [], _, p, hp, _, _ => absurd hp (List.not_mem_nil p)
  | q :: rest, buf, p, hp, hhit, huniq => by
    simp only [List.foldl_cons]
    by_cases hrest : ∃ q' ∈ rest, pasteHits lib q' r c
    · obtain ⟨q', hq', hhq'⟩ := hrest
      obtain rfl : q' = p := huniq q' (List.mem_cons_of_mem _ hq') hhq'
      exact foldl_paste_hit lib r c rest _ q' hq' hhq'
        fun q2 hq2 h2 => huniq q2 (List.mem_cons_of_mem _ hq2) h2
    · push_neg at hrest
      have hqp : q = p := by
        rcases List.mem_cons.mp hp with h | h
        · exact h.symm
        · exact absurd hhit (hrest p h)
      subst hqp
      rw [foldl_paste_miss lib r c rest _ hrest]
      unfold pasteHits at hhit
      simp only [paste]
      rw [if_pos hhit]

theorem frame_reconstruct (f : Frame) (lib : List Content) (pls : List Placement)
    (hall : ∀ p ∈ pls, PlacementOK f lib p)
    (hpw : List.Pairwise cellDisjoint pls)
    (hcov : CoversContent f pls) :
    FrameEq ⟨f.width, f.height, composite lib pls⟩ f := by
  refine ⟨rfl, rfl, ?_⟩
  intro r hr c hc
  show composite lib pls r c = f.px r c
  have hr' : r < f.height := hr
  have hc' : c < f.width := hc
  have huniq : ∀ p ∈ pls, pasteHits lib p r c → ∀ q ∈ pls, pasteHits lib q r c → q = p := by
    intro p hp hhp q hq hhq
    by_contra hne
    have hip : inRegion p r c := (pasteHits_iff f lib p (hall p hp) r c).mp hhp
    have hiq : inRegion q r c := (pasteHits_iff f lib q (hall q hq) r c).mp hhq
    obtain ⟨hxp, hyp, hwp, hhp2, _⟩ := hall p hp
    obtain ⟨hxq, hyq, hwq, hhq2, _⟩ := hall q hq
    have hcellp : (c / TILE_SIZE, r / TILE_SIZE) ∈ cellsP p :=
      pixelCell_mem p r c hxp hyp hwp hhp2 hip
    have hcellq : (c / TILE_SIZE, r / TILE_SIZE) ∈ cellsP q :=
      pixelCell_mem q r c hxq hyq hwq hhq2 hiq
    have hsym : List.Pairwise (fun a b => cellDisjoint a b ∨ cellDisjoint b a) pls :=
      hpw.imp fun h => Or.inl h
    have hR := hsym.forall (fun x y h => Or.symm h) hq hp hne
    rcases hR with hd | hd
    · exact hd _ hcellq hcellp
    · exact hd _ hcellp hcellq
  by_cases hex : ∃ p ∈ pls, pasteHits lib p r c
  · obtain ⟨p, hp, hhp⟩ := hex
    unfold composite
    rw [foldl_paste_hit lib r c pls _ p hp hhp (huniq p hp hhp)]
    obtain ⟨_, _, _, _, _, _, _, _, _, hcontent⟩ := hall p hp
    have hip : inRegion p r c := (pasteHits_iff f lib p (hall p hp) r c).mp hhp
    obtain ⟨h1, h2, h3, h4⟩ := hip
    rw [hcontent, extract_entry f p.x p.y p.w p.h (r - p.y) (c - p.x) (by omega) (by omega)]
    congr 1 <;> omega
  · push_neg at hex
    unfold composite
    rw [foldl_paste_miss lib r c pls _ hex]
    by_cases hz : f.px r c = 0
    · exact hz.symm
    · obtain ⟨p, hp, hip⟩ := hcov r hr' c hc' hz
      exact absurd ((pasteHits_iff f lib p (hall p hp) r c).mpr hip) (hex p hp)

theorem fg_forall2 (libF : List Content) :
    ∀ (fs : List Frame) (plss : List (List Placement)),
      List.Forall₂ (fun f pls => List.Pairwise cellDisjoint pls ∧
        ∀ p ∈ pls, PlacementOK f libF p) fs plss →
      List.Forall₂ CoversContent fs plss →
      List.Forall₂ FrameEq (fgProcess libF plss (fs.map fun f => (f.width, f.height))) fs
  | [], [], _, _ => List.Forall₂.nil
  | [], _ :: _, hspec, _ => nomatch hspec
  | _ :: _, [], hspec, _ => nomatch hspec
  | f :: fs, pls :: plss, hspec, hcov => by
    rcases hspec with _ | ⟨⟨hpw, hok⟩, hspec'⟩
    rcases hcov with _ | ⟨hcovh, hcovt⟩
    show List.Forall₂ FrameEq
      (⟨f.width, f.height, composite libF pls⟩ :: fgProcess libF plss
        (fs.map fun f => (f.width, f.height))) (f :: fs)
    exact List.Forall₂.cons (frame_reconstruct f libF pls hok hpw hcovh)
      (fg_forall2 libF fs plss hspec' hcovt)

/-- C1 counterexample: for the 8×8 frame with a single opaque pixel the
forward pipeline emits no placements at threshold 1/2 (the claim's
overlap-freedom hypothesis holds vacuously), yet the inverse pipeline
reconstructs the all-empty frame, which differs from the original at
pixel (0, 0) — the round trip is not bit-for-bit for every batch. -/
theorem roundtrip_counterexample :
    ogProcess [dotFrame] (mkRat 1 2) = .ok ([], [[]]) ∧
      List.Pairwise cellDisjoint ([] : List Placement) ∧
      ¬ FrameEq ((fgProcess [] [[]] [(8, 8)]).headD ⟨0, 0, fun _ _ => 0⟩) dotFrame := by
  refine ⟨rfl, List.Pairwise.nil, ?_⟩
  rintro ⟨_, _, hpx⟩
  exact absurd (hpx 0 (by decide) 0 (by decide)) (by decide)

/-- C1 amended. Round-trip: if the forward pipeline succeeds on a batch
of frames and — in addition to the claim's hypotheses (`avoid_overlap =
"none"` is the modelled compositing mode, and overlap-freedom holds by
construction) — every non-empty pixel of each frame is covered by one of
its placements, then the inverse pipeline reproduces every frame of the
batch bit-for-bit. -/
theorem roundtrip_reconstruction (frames : List Frame) (t : ℚ) (lib : List Content)
    (plss : List (List Placement))
    (hok : ogProcess frames t = .ok (lib, plss))
    (hcov : List.Forall₂ CoversContent frames plss) :
    List.Forall₂ FrameEq (fgProcess lib plss (frames.map fun f => (f.width, f.height)))
      frames := by
  unfold ogProcess at hok
  by_cases h1 : frames.isEmpty = true
  · rw [if_pos h1] at hok; cases hok
  · rw [if_neg h1] at hok
    by_cases h2 : frames.all dimsOK = true
    · rw [if_pos h2] at hok
      injection hok with hok'
      have hspec := processFrames_spec frames t [] (List.all_eq_true.mp h2)
      rw [hok'] at hspec
      exact fg_forall2 lib frames plss hspec hcov
    · rw [if_neg h2] at hok; cases hok

/-- Witness for the amended C1: the all-opaque 8×8 frame round-trips
through its one-placement decomposition. -/
theorem roundtrip_reconstruction_witness :
    List.Forall₂ FrameEq
      (fgProcess [List.replicate 8 (List.replicate 8 1)] [[⟨0, 0, 8, 8, 0, (0, 0)⟩]]
        ([onesFrame].map fun f => (f.width, f.height)))
      [onesFrame] :=
  roundtrip_reconstruction [onesFrame] (mkRat 1 2) [List.replicate 8 (List.replicate 8 1)]
    [[⟨0, 0, 8, 8, 0, (0, 0)⟩]] rfl
    (List.Forall₂.cons (by decide) List.Forall₂.nil)

end ObjectStudio
